import Mathlib

/-!
Verification of the symbolic ADF solver core (`biodivine-adf-solver`).

The BDD library (`ruddy`) is external; following the spec (§6), a BDD is
modelled semantically as a Boolean-formula term evaluated over assignments
of its integer variable ids.  Because the library produces reduced ordered
BDDs, which are canonical, the library's `structural_eq` coincides with
functional equivalence and `is_false` with unsatisfiability; both are
realised here as decidable checks over the finitely many mentioned
variables.
-/

/-- Semantic model of a `ruddy::split::Bdd`: a Boolean formula over integer
variable ids, mirroring exactly the operations the repository uses
(`new_true`, `new_false`, `new_literal`, `not`, `and`, `or`, `xor`, `iff`,
`implies`, and single-variable `exists` / fused `binary_op_with_exists`). -/
inductive Bdd where
  | tt : Bdd
  | ff : Bdd
  | lit : Nat → Bool → Bdd
  | not : Bdd → Bdd
  | and : Bdd → Bdd → Bdd
  | or : Bdd → Bdd → Bdd
  | xor : Bdd → Bdd → Bdd
  | iff : Bdd → Bdd → Bdd
  | imp : Bdd → Bdd → Bdd
  | ex : Nat → Bdd → Bdd
deriving DecidableEq, Repr

/-- Evaluate a BDD under an assignment of Boolean values to variable ids. -/
def Bdd.eval : Bdd → (Nat → Bool) → Bool
  | .tt, _ => true
  | .ff, _ => false
  | .lit v p, a => if p then a v else !(a v)
  | .not b, a => !(b.eval a)
  | .and b c, a => b.eval a && c.eval a
  | .or b c, a => b.eval a || c.eval a
  | .xor b c, a => !((b.eval a) == (c.eval a))
  | .iff b c, a => (b.eval a) == (c.eval a)
  | .imp b c, a => !(b.eval a) || c.eval a
  | .ex v b, a => b.eval (Function.update a v true) || b.eval (Function.update a v false)

/-- All variable ids mentioned in a BDD term (a finite superset of its support). -/
def Bdd.vars : Bdd → List Nat
  | .tt | .ff => []
  | .lit v _ => [v]
  | .not b => b.vars
  | .and b c | .or b c | .xor b c | .iff b c | .imp b c => b.vars ++ c.vars
  | .ex v b => v :: b.vars

/-- All assignments over a finite variable list (every other variable is `false`). -/
def envsOf : List Nat → List (Nat → Bool)
  | [] => [fun _ => false]
  | v :: vs => (envsOf vs).flatMap
      (fun a => [Function.update a v false, Function.update a v true])

/-- Evaluation only depends on the mentioned variables. -/
theorem Bdd.eval_congr : ∀ (b : Bdd) (a a' : Nat → Bool),
    (∀ v ∈ b.vars, a v = a' v) → b.eval a = b.eval a' := by
  intro b
  induction b with
  | tt => intro _ _ _; rfl
  | ff => intro _ _ _; rfl
  | lit v p =>
    intro a a' h
    simp only [Bdd.eval]
    rw [h v (by simp [Bdd.vars])]
  | not b ih =>
    intro a a' h
    simp only [Bdd.eval]
    rw [ih a a' h]
  | and b c ihb ihc =>
    intro a a' h
    simp only [Bdd.eval]
    rw [ihb a a' (fun v hv => h v (by simp [Bdd.vars, hv])),
      ihc a a' (fun v hv => h v (by simp [Bdd.vars, hv]))]
  | or b c ihb ihc =>
    intro a a' h
    simp only [Bdd.eval]
    rw [ihb a a' (fun v hv => h v (by simp [Bdd.vars, hv])),
      ihc a a' (fun v hv => h v (by simp [Bdd.vars, hv]))]
  | xor b c ihb ihc =>
    intro a a' h
    simp only [Bdd.eval]
    rw [ihb a a' (fun v hv => h v (by simp [Bdd.vars, hv])),
      ihc a a' (fun v hv => h v (by simp [Bdd.vars, hv]))]
  | iff b c ihb ihc =>
    intro a a' h
    simp only [Bdd.eval]
    rw [ihb a a' (fun v hv => h v (by simp [Bdd.vars, hv])),
      ihc a a' (fun v hv => h v (by simp [Bdd.vars, hv]))]
  | imp b c ihb ihc =>
    intro a a' h
    simp only [Bdd.eval]
    rw [ihb a a' (fun v hv => h v (by simp [Bdd.vars, hv])),
      ihc a a' (fun v hv => h v (by simp [Bdd.vars, hv]))]
  | ex v b ih =>
    intro a a' h
    have step : ∀ (x : Bool), b.eval (Function.update a v x) =
        b.eval (Function.update a' v x) := by
      intro x
      apply ih
      intro u hu
      by_cases huv : u = v
      · subst huv; simp
      · rw [Function.update_noteq huv, Function.update_noteq huv]
        exact h u (by simp [Bdd.vars, hu])
    simp only [Bdd.eval, step]

/-- Every assignment is represented in `envsOf vs`, up to agreement on `vs`. -/
theorem envsOf_complete : ∀ (vs : List Nat) (a : Nat → Bool),
    ∃ a' ∈ envsOf vs, ∀ v ∈ vs, a' v = a v := by
  intro vs
  induction vs with
  | nil => intro a; exact ⟨fun _ => false, by simp [envsOf], by simp⟩
  | cons v vs ih =>
    intro a
    obtain ⟨a', ha'mem, ha'⟩ := ih a
    refine ⟨Function.update a' v (a v), ?_, ?_⟩
    · simp only [envsOf, List.mem_flatMap]
      refine ⟨a', ha'mem, ?_⟩
      cases h : a v <;> simp [h]
    · intro u hu
      by_cases huv : u = v
      · subst huv; simp
      · rw [Function.update_noteq huv]
        exact ha' u (by simpa [huv] using hu)

/-- Decidable unsatisfiability check, the model of `ruddy`'s `Bdd::is_false`
(reduced ordered BDDs are canonical, so `is_false` is exactly semantic
unsatisfiability). -/
def Bdd.isFalseB (b : Bdd) : Bool :=
  (envsOf b.vars).all (fun a => !(b.eval a))

theorem Bdd.isFalseB_iff (b : Bdd) :
    b.isFalseB = true ↔ ∀ a, b.eval a = false := by
  constructor
  · intro h a
    obtain ⟨a', ha'mem, ha'⟩ := envsOf_complete b.vars a
    have h1 : b.eval a = b.eval a' := Bdd.eval_congr b a a' (fun v hv => (ha' v hv).symm)
    have h2 : !(b.eval a') = true := by
      simpa using (List.all_eq_true.mp h) a' ha'mem
    rw [h1]
    simpa using h2
  · intro h
    apply List.all_eq_true.mpr
    intro a _
    simp [h a]

/-- Model of `ruddy`'s `Bdd::structural_eq`: on canonical (reduced ordered)
BDDs, structural equality coincides with functional equivalence, decided
here via the finitely many mentioned variables. -/
def Bdd.structuralEq (b c : Bdd) : Bool :=
  (Bdd.xor b c).isFalseB

theorem Bdd.structuralEq_iff (b c : Bdd) :
    b.structuralEq c = true ↔ ∀ a, b.eval a = c.eval a := by
  unfold Bdd.structuralEq
  rw [Bdd.isFalseB_iff]
  constructor
  · intro h a
    have := h a
    simp only [Bdd.eval] at this
    cases hb : b.eval a <;> cases hc : c.eval a <;> simp [hb, hc] at this ⊢
  · intro h a
    simp [Bdd.eval, h a]

/-- `ConditionExpression` (modelled from the spec §3; `condition_expression.rs`
is not among the sources): a finite tree over Constant, Statement, Negation,
n-ary And/Or with an ordered child list, Implication, Equivalence,
ExclusiveOr.  Statements are opaque natural-number identifiers. -/
inductive CExpr where
  | const : Bool → CExpr
  | stmt : Nat → CExpr
  | neg : CExpr → CExpr
  | andE : List CExpr → CExpr
  | orE : List CExpr → CExpr
  | implE : CExpr → CExpr → CExpr
  | equivE : CExpr → CExpr → CExpr
  | xorE : CExpr → CExpr → CExpr
deriving Repr

/-- `DirectMap::new` variable allocation (src/src/adf_symbolic.rs:17-26):
`VariableId::new(index << 2)` computed on `u32`, i.e. `4·index` with the
shifted-out bits discarded — `(4·s) mod 2^32`. -/
def dVar (s : Nat) : Nat := (4 * s) % 4294967296

/-- `DualMap::new` positive variable (src/src/adf_symbolic.rs:69-80):
`(index << 2) + 1` on `u32`. -/
def tVar (s : Nat) : Nat := dVar s + 1

/-- `DualMap::new` negative variable: `(index << 2) + 2` on `u32`. -/
def fVar (s : Nat) : Nat := dVar s + 2

mutual

/-- `expression_to_bdd` (src/src/adf_symbolic.rs:238-295): constants map to
constant BDDs, statement references to positive literals via the direct map
(`none` models the panic when the referenced statement is absent from the
map, `dom` being the map's statement set), negation to complement, And/Or
to left folds starting from true/false, implication to `¬l ∨ r`,
equivalence/xor to the `iff`/`xor` BDD operations. -/
def exprToBdd (dom : List Nat) : CExpr → Option Bdd
  | .const b => some (if b then Bdd.tt else Bdd.ff)
  | .stmt s => if s ∈ dom then some (Bdd.lit (dVar s) true) else none
  | .neg c =>
    match exprToBdd dom c with
    | none => none
    | some b => some b.not
  | .andE args => exprToBddAndFold dom Bdd.tt args
  | .orE args => exprToBddOrFold dom Bdd.ff args
  | .implE l r =>
    match exprToBdd dom l, exprToBdd dom r with
    | some lb, some rb => some (lb.not.or rb)
    | _, _ => none
  | .equivE l r =>
    match exprToBdd dom l, exprToBdd dom r with
    | some lb, some rb => some (lb.iff rb)
    | _, _ => none
  | .xorE l r =>
    match exprToBdd dom l, exprToBdd dom r with
    | some lb, some rb => some (lb.xor rb)
    | _, _ => none

/-- The `fold(Bdd::new_true(), |acc, op| acc.and(...))` over And children. -/
def exprToBddAndFold (dom : List Nat) (acc : Bdd) : List CExpr → Option Bdd
  | [] => some acc
  | x :: xs =>
    match exprToBdd dom x with
    | none => none
    | some b => exprToBddAndFold dom (acc.and b) xs

/-- The `fold(Bdd::new_false(), |acc, op| acc.or(...))` over Or children. -/
def exprToBddOrFold (dom : List Nat) (acc : Bdd) : List CExpr → Option Bdd
  | [] => some acc
  | x :: xs =>
    match exprToBdd dom x with
    | none => none
    | some b => exprToBddOrFold dom (acc.or b) xs

end

mutual

/-- Direct Boolean semantics of a condition expression under a full
assignment of statements (the spec's `evaluate(C, α)`). -/
def evalExpr : CExpr → (Nat → Bool) → Bool
  | .const b, _ => b
  | .stmt s, a => a s
  | .neg c, a => !(evalExpr c a)
  | .andE args, a => evalExprAll args a
  | .orE args, a => evalExprAny args a
  | .implE l r, a => !(evalExpr l a) || evalExpr r a
  | .equivE l r, a => (evalExpr l a) == (evalExpr r a)
  | .xorE l r, a => !((evalExpr l a) == (evalExpr r a))

/-- Conjunction of the children's values. -/
def evalExprAll : List CExpr → (Nat → Bool) → Bool
  | [], _ => true
  | x :: xs, a => evalExpr x a && evalExprAll xs a

/-- Disjunction of the children's values. -/
def evalExprAny : List CExpr → (Nat → Bool) → Bool
  | [], _ => false
  | x :: xs, a => evalExpr x a || evalExprAny xs a

end

/-- `2^64`, the modulus of Rust's wrapping `u64` arithmetic. -/
def U64 : Nat := 18446744073709551616

mutual

/-- `expected_size` (src/examples/adf_to_bn.rs:40-48), computed in `u64`
arithmetic (wrapping, i.e. modulo `2^64`, as in release builds):
constants/statements 1; negation `1 + child`; And/Or `Σ children + n`;
implication `l + r + 1`; equivalence/xor `2·(l + r) + 3`. -/
def expectedSize : CExpr → Nat
  | .const _ => 1
  | .stmt _ => 1
  | .neg x => (1 + expectedSize x) % U64
  | .andE args => (expectedSizeSum args + args.length) % U64
  | .orE args => (expectedSizeSum args + args.length) % U64
  | .implE x y => (expectedSize x + expectedSize y + 1) % U64
  | .equivE x y => (2 * (expectedSize x + expectedSize y) + 3) % U64
  | .xorE x y => (2 * (expectedSize x + expectedSize y) + 3) % U64

/-- `args.iter().map(expected_size).sum::<u64>()` — wrapping sum. -/
def expectedSizeSum : List CExpr → Nat
  | [] => 0
  | x :: xs => (expectedSize x + expectedSizeSum xs) % U64

end

mutual

/-- Modelled from the spec: the claimed recursive size formula over unbounded
integers — "constants and statement references count 1; negation counts 1
plus the child's estimate; n-ary and/or count n plus the sum of the
children's estimates; implication counts 1 plus the sum of both sides;
equivalence and exclusive-or count 3 plus twice the sum of both sides". -/
def specSize : CExpr → Nat
  | .const _ => 1
  | .stmt _ => 1
  | .neg x => 1 + specSize x
  | .andE args => args.length + specSizeSum args
  | .orE args => args.length + specSizeSum args
  | .implE x y => 1 + (specSize x + specSize y)
  | .equivE x y => 3 + 2 * (specSize x + specSize y)
  | .xorE x y => 3 + 2 * (specSize x + specSize y)

/-- The exact (unbounded) sum of the children's estimates. -/
def specSizeSum : List CExpr → Nat
  | [] => 0
  | x :: xs => specSize x + specSizeSum xs

end

/-- An Expression ADF (spec §3; `adf_expression.rs` is not among the
sources): an ordered statement list plus an optional acceptance condition
per statement — statements without a condition are free. -/
structure ExpressionAdf where
  statements : List Nat
  condition : Nat → Option CExpr

/-- The writer's total size accumulator (src/examples/adf_to_bn.rs:15-21):
`total_size: u64` starts at 0 and adds `expected_size` of every statement's
condition, skipping free statements; wrapping `u64` addition. -/
def writerTotalSize (adf : ExpressionAdf) : Nat :=
  adf.statements.foldl
    (fun acc s =>
      match adf.condition s with
      | some c => (acc + expectedSize c) % U64
      | none => acc)
    0

/-- The writer's refusal test (src/examples/adf_to_bn.rs:22): refuse to
convert exactly when `total_size > 10_000_000`. -/
def writerRefuses (adf : ExpressionAdf) : Bool :=
  decide (writerTotalSize adf > 10000000)

/-- `direct_to_dual_encoding` (src/src/adf_symbolic.rs:301-322): one rewriting
step for statement `s` — conjoin `(¬v ∨ t) ∧ (v ∨ f)` (the source's literal
form of `(v → t) ∧ (¬v → f)`) and existentially quantify the direct
variable `v`. -/
def dualStep (result : Bdd) (s : Nat) : Bdd :=
  let stateImpliesT := (Bdd.lit (dVar s) false).or (Bdd.lit (tVar s) true)
  let notStateImpliesF := (Bdd.lit (dVar s) true).or (Bdd.lit (fVar s) true)
  let isInSpace := stateImpliesT.and notStateImpliesF
  (result.and isInSpace).ex (dVar s)

/-- The loop of `direct_to_dual_encoding`, processing a statement list that
has already been reversed. -/
def dualLoop (result : Bdd) : List Nat → Bdd
  | [] => result
  | s :: rest => dualLoop (dualStep result s) rest

/-- `direct_to_dual_encoding` over the map's statements, which it visits in
reverse statement order. -/
def directToDualEncoding (f : Bdd) (stmts : List Nat) : Bdd :=
  dualLoop f stmts.reverse

/-- Modelled from the spec: the claimed lift step — replace `F` by
`∃ v . (F ∧ (v → t) ∧ (¬v → f))`, written with material implications. -/
def liftSpecStep (result : Bdd) (s : Nat) : Bdd :=
  ((result.and (((Bdd.lit (dVar s) true).imp (Bdd.lit (tVar s) true)).and
    ((Bdd.lit (dVar s) false).imp (Bdd.lit (fVar s) true)))).ex (dVar s))

/-- Modelled from the spec: `lift`, processing statements in reverse
statement order and applying `liftSpecStep` at each. -/
def liftSpec (f : Bdd) (stmts : List Nat) : Bdd :=
  stmts.reverse.foldl liftSpecStep f

/-- Direct condition BDDs built by `From<&ExpressionAdf> for SymbolicAdf`
(src/src/adf_symbolic.rs:198-205): for every statement of the ADF with a
condition expression, translate it over the direct map (whose domain is the
full statement list). -/
def directConditions (adf : ExpressionAdf) (s : Nat) : Option Bdd :=
  if s ∈ adf.statements then
    match adf.condition s with
    | some e => exprToBdd adf.statements e
    | none => none
  else none

/-- Dual condition pairs built by `From<&ExpressionAdf> for SymbolicAdf`
(src/src/adf_symbolic.rs:207-216): for every statement with a direct
condition BDD `C`, the pair `(lift C, lift (¬C))`. -/
def dualConditionsOf (adf : ExpressionAdf) (s : Nat) : Option (Bdd × Bdd) :=
  match directConditions adf s with
  | some c =>
    some (directToDualEncoding c adf.statements,
      directToDualEncoding c.not adf.statements)
  | none => none

/-- The solver's view of a symbolic ADF (`AdfBdds`; module `adf_bdds` is not
among the sources, its shape is the spec's §3 Symbolic ADF: statement list
shared by both encodings, per-statement optional direct condition BDD and
optional dual condition pair, plus the identity token of the shared
reference-counted `DirectEncoding`/`DualEncoding` instance). -/
structure AdfBdds where
  stmts : List Nat
  directCond : Nat → Option Bdd
  dualCond : Nat → Option (Bdd × Bdd)
  encId : Nat

/-- Identity-carrying handle of a shared encoding instance (spec §9: an
encoding is constructed once behind a reference-counted handle and binary
operations compare handle identity).  Distinct `Arc` instances are modelled
by distinct `id` tokens. -/
structure EncRef where
  id : Nat
  stmts : List Nat
deriving DecidableEq, Repr

/-- `ModelSetTwoValued` (src/src/model_set/two_valued.rs:10-14): a BDD plus
the shared `DirectEncoding` handle. -/
structure MS2 where
  set : Bdd
  enc : EncRef
deriving DecidableEq, Repr

/-- `ModelSetThreeValued` (spec §3; `model_set/three_valued.rs` is not among
the sources): the analogous wrapper over the shared `DualEncoding` handle. -/
structure MS3 where
  set : Bdd
  enc : EncRef
deriving DecidableEq, Repr

/-- Modelled from the spec: `NaiveGreedySolver::solve_conjunction` (module
`bdd_solver` is not among the sources).  Per §4.3 the result is the
conjunction of the inputs, cancellation is checked between pair-wise
reductions, the empty input yields the true BDD and a single input is
returned unchanged.  The pick-two-smallest order only affects intermediate
sizes; conjunction being associative and commutative, the left-to-right
reduction is semantically faithful.  The cancellation token (`cancel_this`)
is modelled as a constant Boolean flag. -/
def solveConjunction (cancelled : Bool) : List Bdd → Except Unit Bdd
  | [] => .ok Bdd.tt
  | [b] => .ok b
  | b1 :: b2 :: rest =>
    if cancelled then .error ()
    else solveConjunction cancelled (b1.and b2 :: rest)
termination_by l => l.length

/-- The constraint-generation loop of `solve_complete_two_valued`
(src/src/adf_interpretation_solver.rs:32-53): for each statement in
statement order, first check cancellation, then skip free statements, and
otherwise push the fixed-point constraint `statement_lit ↔ condition`. -/
def completeLoop (cancelled : Bool) (adf : AdfBdds) : List Nat → Except Unit (List Bdd)
  | [] => .ok []
  | s :: rest =>
    if cancelled then .error ()
    else
      match adf.directCond s with
      | none => completeLoop cancelled adf rest
      | some c =>
        match completeLoop cancelled adf rest with
        | .error e => .error e
        | .ok l => .ok ((Bdd.lit (dVar s) true).iff c :: l)

/-- `solve_complete_two_valued` (src/src/adf_interpretation_solver.rs:23-71):
generate the fixed-point constraints, conjoin them with the solver, and wrap
the resulting BDD with the shared `DirectEncoding`
(`adf.mk_two_valued_set`). -/
def solveCompleteTwoValued (cancelled : Bool) (adf : AdfBdds) : Except Unit MS2 := do
  let cs ← completeLoop cancelled adf adf.stmts
  let b ← solveConjunction cancelled cs
  .ok ⟨b, ⟨adf.encId, adf.stmts⟩⟩

/-- Modelled from the spec: the `DualEncoding`'s validity BDD (§4.4 —
"asserting, for every statement, that at least one of `(t_i, f_i)` is
set"); `adf_bdds` with `DualEncoding::valid` is not among the sources. -/
def dualValid : List Nat → Bdd
  | [] => Bdd.tt
  | s :: rest => ((Bdd.lit (tVar s) true).or (Bdd.lit (fVar s) true)).and (dualValid rest)

/-- The constraint-generation loop of `solve_admissible`
(src/src/adf_interpretation_solver.rs:82-107): for each statement in
statement order, first check cancellation, then skip free statements, and
otherwise push the two trap constraints `P → t` and `N → f` (material
implications via `Bdd::implies`). -/
def admissibleLoop (cancelled : Bool) (adf : AdfBdds) : List Nat → Except Unit (List Bdd)
  | [] => .ok []
  | s :: rest =>
    if cancelled then .error ()
    else
      match adf.dualCond s with
      | none => admissibleLoop cancelled adf rest
      | some (p, n) =>
        match admissibleLoop cancelled adf rest with
        | .error e => .error e
        | .ok l => .ok (p.imp (Bdd.lit (tVar s) true) :: n.imp (Bdd.lit (fVar s) true) :: l)

/-- `solve_admissible` (src/src/adf_interpretation_solver.rs:73-125): the
constraint vector starts with the dual encoding's validity BDD, the trap
constraints follow, everything is conjoined by the solver and the result is
wrapped with the shared `DualEncoding` (`adf.mk_three_valued_set`). -/
def solveAdmissible (cancelled : Bool) (adf : AdfBdds) : Except Unit MS3 := do
  let cs ← admissibleLoop cancelled adf adf.stmts
  let b ← solveConjunction cancelled (dualValid adf.stmts :: cs)
  .ok ⟨b, ⟨adf.encId, adf.stmts⟩⟩

/-- `ModelSetTwoValued::intersect` (src/src/model_set/two_valued.rs:79-86):
`assert!(Arc::ptr_eq(...))` then wrap `self.and(other)` with the same shared
encoding.  `none` models the `EncodingMismatch` panic; handle identity is
the `id` token. -/
def MS2.intersect (a b : MS2) : Option MS2 :=
  if a.enc.id = b.enc.id then some ⟨a.set.and b.set, a.enc⟩ else none

/-- `ModelSetTwoValued::union` (src/src/model_set/two_valued.rs:89-96). -/
def MS2.union (a b : MS2) : Option MS2 :=
  if a.enc.id = b.enc.id then some ⟨a.set.or b.set, a.enc⟩ else none

/-- `ModelSetTwoValued::minus` (src/src/model_set/two_valued.rs:99-106):
`self.and(other.not())`. -/
def MS2.minus (a b : MS2) : Option MS2 :=
  if a.enc.id = b.enc.id then some ⟨a.set.and b.set.not, a.enc⟩ else none

/-- `PartialEq for ModelSetTwoValued` (src/src/model_set/two_valued.rs:16-21
and src/src/model_set_two_valued.rs:11-16): structural BDD equality
conjoined with `Arc::ptr_eq` of the encoding handles. -/
def MS2.eqImpl (a b : MS2) : Bool :=
  a.set.structuralEq b.set && (a.enc.id == b.enc.id)

/-- One iteration of `extend_with_more_ones`
(src/src/model_set/two_valued.rs:123-153) for variable `v`: select the
models with `v = false` via the fused `binary_op_with_exists(¬v, And, [v])`,
reintroduce `v = true`, and union the result in unless it is empty. -/
def extendStep (result : Bdd) (v : Nat) : Bdd :=
  let addsTrue := ((result.and (Bdd.lit v false)).ex v).and (Bdd.lit v true)
  if addsTrue.isFalseB then result else result.or addsTrue

/-- The variable loop of `extend_with_more_ones`, over a list that has
already been reversed. -/
def extendLoop (result : Bdd) : List Nat → Bdd
  | [] => result
  | v :: rest => extendLoop (extendStep result v) rest

/-- `ModelSetTwoValued::extend_with_more_ones`
(src/src/model_set/two_valued.rs:121-159): iterate the encoding's direct
variables in reverse order and wrap the accumulated BDD with the same
shared encoding. -/
def MS2.extendWithMoreOnes (m : MS2) : MS2 :=
  ⟨extendLoop m.set (m.enc.stmts.map dVar).reverse, m.enc⟩

/-- `DirectMap::new` (src/src/adf_symbolic.rs:17-26): each statement of the
ordered input list is mapped to `VariableId::new(index << 2)`; `none`
models the `u32::try_from(...).expect(...)` panic for indices outside
`u32`. -/
def directMapNew (statements : List Nat) : Option (List (Nat × Nat)) :=
  if statements.all (fun s => s < 4294967296) then
    some (statements.map (fun s => (s, dVar s)))
  else none

/-- `DualMap::new` (src/src/adf_symbolic.rs:69-80): each statement is mapped
to the pair `((index << 2) + 1, (index << 2) + 2)`. -/
def dualMapNew (statements : List Nat) : Option (List (Nat × (Nat × Nat))) :=
  if statements.all (fun s => s < 4294967296) then
    some (statements.map (fun s => (s, (tVar s, fVar s))))
  else none

theorem solveConjunction_false_eval (bs : List Bdd) :
    ∃ b, solveConjunction false bs = .ok b ∧
      ∀ a, b.eval a = bs.all (fun x => x.eval a) := by
  generalize hn : bs.length = n
  induction n generalizing bs with
  | zero =>
    have : bs = [] := List.length_eq_zero.mp hn
    subst this
    exact ⟨Bdd.tt, by rw [solveConjunction], by intro a; simp [Bdd.eval]⟩
  | succ n ih =>
    match bs with
    | [b] => exact ⟨b, by rw [solveConjunction], by intro a; simp⟩
    | b1 :: b2 :: rest =>
      have hlen : (b1.and b2 :: rest).length = n := by
        simp at hn; simp; omega
      obtain ⟨b, hb, hev⟩ := ih (b1.and b2 :: rest) hlen
      refine ⟨b, ?_, ?_⟩
      · rw [solveConjunction]
        simpa using hb
      · intro a
        rw [hev a]
        simp [Bdd.eval, Bool.and_assoc]

theorem completeLoop_false (adf : AdfBdds) : ∀ L : List Nat,
    completeLoop false adf L = .ok (L.filterMap
      (fun s => (adf.directCond s).map (fun c => (Bdd.lit (dVar s) true).iff c))) := by
  intro L
  induction L with
  | nil => rfl
  | cons s rest ih =>
    rw [completeLoop]
    cases h : adf.directCond s <;> simp [h, ih, List.filterMap_cons]

/-- C1: `solve_complete_two_valued` builds exactly the constraint
`v_i ↔ C_i` for every statement with a condition and nothing for free
statements, conjoins them all, and wraps the result with the
`DirectEncoding`; an assignment is in the resulting set iff for every
non-free statement the value of its direct variable equals the value of its
direct-encoded condition BDD under that assignment. -/
theorem c1_solve_complete_fixed_points (adf : AdfBdds) :
    ∃ ms, solveCompleteTwoValued false adf = .ok ms ∧
      ms.enc = ⟨adf.encId, adf.stmts⟩ ∧
      completeLoop false adf adf.stmts = .ok (adf.stmts.filterMap
        (fun s => (adf.directCond s).map (fun c => (Bdd.lit (dVar s) true).iff c))) ∧
      (∀ a, ms.set.eval a = true ↔
        ∀ s ∈ adf.stmts, ∀ c, adf.directCond s = some c → a (dVar s) = c.eval a) := by
  obtain ⟨b, hb, hev⟩ := solveConjunction_false_eval (adf.stmts.filterMap
    (fun s => (adf.directCond s).map (fun c => (Bdd.lit (dVar s) true).iff c)))
  refine ⟨⟨b, ⟨adf.encId, adf.stmts⟩⟩, ?_, rfl, completeLoop_false adf adf.stmts, ?_⟩
  · unfold solveCompleteTwoValued
    rw [completeLoop_false adf adf.stmts]
    simp only [Bind.bind, Except.bind, hb]
  · intro a
    simp only [hev a, List.all_eq_true]
    constructor
    · intro h s hs c hc
      have := h ((Bdd.lit (dVar s) true).iff c)
        (List.mem_filterMap.mpr ⟨s, hs, by simp [hc]⟩)
      simpa [Bdd.eval] using this
    · intro h x hx
      obtain ⟨s, hs, hsx⟩ := List.mem_filterMap.mp hx
      obtain ⟨c, hc, rfl⟩ := Option.map_eq_some'.mp hsx
      simpa [Bdd.eval] using h s hs c hc

theorem dualValid_eval (L : List Nat) (a : Nat → Bool) :
    (dualValid L).eval a = true ↔ ∀ s ∈ L, a (tVar s) = true ∨ a (fVar s) = true := by
  induction L with
  | nil => simp [dualValid, Bdd.eval]
  | cons s rest ih =>
    simp only [dualValid, Bdd.eval, Bool.and_eq_true, Bool.or_eq_true, ih, List.mem_cons]
    constructor
    · rintro ⟨h1, h2⟩ u hu
      rcases hu with rfl | hu
      · exact h1
      · exact h2 u hu
    · intro h
      exact ⟨h s (Or.inl rfl), fun u hu => h u (Or.inr hu)⟩

theorem admissibleLoop_false (adf : AdfBdds) : ∀ L : List Nat,
    admissibleLoop false adf L = .ok (L.flatMap
      (fun s => match adf.dualCond s with
        | some (p, n) => [p.imp (Bdd.lit (tVar s) true), n.imp (Bdd.lit (fVar s) true)]
        | none => [])) := by
  intro L
  induction L with
  | nil => rfl
  | cons s rest ih =>
    rw [admissibleLoop]
    cases h : adf.dualCond s with
    | none => simp [h, ih]
    | some pn => cases pn with
      | mk p n => simp [h, ih]

/-- C2: `solve_admissible` starts the constraint vector with the dual
encoding's validity BDD, appends exactly the two material implications
`P_i → t_i` and `N_i → f_i` for every statement with dual conditions and
nothing for free statements, conjoins everything with the solver, and wraps
the result with the `DualEncoding`; an assignment is in the set iff it is
valid (some dual literal set for every statement) and satisfies both
implications for every non-free statement. -/
theorem c2_solve_admissible_traps (adf : AdfBdds) :
    ∃ ms, solveAdmissible false adf = .ok ms ∧
      ms.enc = ⟨adf.encId, adf.stmts⟩ ∧
      admissibleLoop false adf adf.stmts = .ok (adf.stmts.flatMap
        (fun s => match adf.dualCond s with
          | some (p, n) => [p.imp (Bdd.lit (tVar s) true), n.imp (Bdd.lit (fVar s) true)]
          | none => [])) ∧
      (∀ a, ms.set.eval a = true ↔
        ((∀ s ∈ adf.stmts, a (tVar s) = true ∨ a (fVar s) = true) ∧
          ∀ s ∈ adf.stmts, ∀ p n, adf.dualCond s = some (p, n) →
            (p.eval a = true → a (tVar s) = true) ∧
            (n.eval a = true → a (fVar s) = true))) := by
  obtain ⟨b, hb, hev⟩ := solveConjunction_false_eval (dualValid adf.stmts ::
    adf.stmts.flatMap
      (fun s => match adf.dualCond s with
        | some (p, n) => [p.imp (Bdd.lit (tVar s) true), n.imp (Bdd.lit (fVar s) true)]
        | none => []))
  refine ⟨⟨b, ⟨adf.encId, adf.stmts⟩⟩, ?_, rfl, admissibleLoop_false adf adf.stmts, ?_⟩
  · unfold solveAdmissible
    rw [admissibleLoop_false adf adf.stmts]
    simp only [Bind.bind, Except.bind, hb]
  · intro a
    rw [hev a]
    simp only [List.all_cons, Bool.and_eq_true, List.all_eq_true, dualValid_eval]
    constructor
    · rintro ⟨hvalid, htail⟩
      refine ⟨hvalid, ?_⟩
      intro s hs p n hpn
      have hp := htail (p.imp (Bdd.lit (tVar s) true))
        (List.mem_flatMap.mpr ⟨s, hs, by simp [hpn]⟩)
      have hn := htail (n.imp (Bdd.lit (fVar s) true))
        (List.mem_flatMap.mpr ⟨s, hs, by simp [hpn]⟩)
      simp only [Bdd.eval, Bool.or_eq_true, Bool.not_eq_true', if_pos] at hp hn
      constructor
      · intro hpe
        rcases hp with hp | hp
        · rw [hpe] at hp; cases hp
        · simpa using hp
      · intro hne
        rcases hn with hn | hn
        · rw [hne] at hn; cases hn
        · simpa using hn
    · rintro ⟨hvalid, himp⟩
      refine ⟨hvalid, ?_⟩
      intro x hx
      obtain ⟨s, hs, hsx⟩ := List.mem_flatMap.mp hx
      cases hpn : adf.dualCond s with
      | none => rw [hpn] at hsx; cases hsx
      | some pn =>
        obtain ⟨p, n⟩ := pn
        rw [hpn] at hsx
        obtain ⟨h1, h2⟩ := himp s hs p n hpn
        simp only [List.mem_cons, List.mem_singleton, List.not_mem_nil, or_false] at hsx
        rcases hsx with rfl | rfl
        · simp only [Bdd.eval, Bool.or_eq_true, Bool.not_eq_true']
          cases hpe : p.eval a
          · left; rfl
          · right; simpa using h1 hpe
        · simp only [Bdd.eval, Bool.or_eq_true, Bool.not_eq_true']
          cases hne : n.eval a
          · left; rfl
          · right; simpa using h2 hne

/-- An ADF with no statements (parse of an empty program). -/
def emptyAdfBdds : AdfBdds := ⟨[], fun _ => none, fun _ => none, 0⟩

/-- An ADF with a single free statement `s(0).`. -/
def oneStatementAdf : AdfBdds := ⟨[0], fun _ => none, fun _ => none, 0⟩

/-- C7 counterexample: on an ADF with no statements, both per-statement
loops run zero iterations and the conjunction solver receives at most one
BDD, so no cancellation check ever happens — with the flag already set
before solving, both operations still return a model set instead of
Cancelled. -/
theorem c7_cancelled_empty_adf_counterexample :
    solveCompleteTwoValued true emptyAdfBdds = .ok ⟨Bdd.tt, ⟨0, []⟩⟩ ∧
      solveAdmissible true emptyAdfBdds = .ok ⟨Bdd.tt, ⟨0, []⟩⟩ := by
  have h0 : solveConjunction true ([] : List Bdd) = .ok Bdd.tt := by
    rw [solveConjunction]
  have h1 : solveConjunction true [Bdd.tt] = .ok Bdd.tt := by
    rw [solveConjunction]
  constructor
  · unfold solveCompleteTwoValued
    rw [show completeLoop true emptyAdfBdds emptyAdfBdds.stmts = .ok [] from rfl]
    simp only [Bind.bind, Except.bind, h0]
    rfl
  · unfold solveAdmissible
    rw [show admissibleLoop true emptyAdfBdds emptyAdfBdds.stmts = .ok [] from rfl]
    rw [show dualValid emptyAdfBdds.stmts = Bdd.tt from rfl]
    simp only [Bind.bind, Except.bind, h1]
    rfl

/-- C7 (amended): both solver operations check the cancellation flag at the
start of every per-statement iteration; whenever the ADF has at least one
statement and the flag is set before solving, the very first check fires
and both operations return Cancelled without any other observable
result. -/
theorem c7_cancellation_amended (adf : AdfBdds) (h : adf.stmts ≠ []) :
    solveCompleteTwoValued true adf = .error () ∧
      solveAdmissible true adf = .error () := by
  match hs : adf.stmts with
  | [] => exact absurd hs h
  | s :: rest =>
    constructor
    · unfold solveCompleteTwoValued
      rw [hs, completeLoop]
      simp [Bind.bind, Except.bind]
    · unfold solveAdmissible
      rw [hs, admissibleLoop]
      simp [Bind.bind, Except.bind]

theorem c7_cancellation_amended_witness :
    oneStatementAdf.stmts ≠ [] ∧
      (solveCompleteTwoValued true oneStatementAdf = .error () ∧
        solveAdmissible true oneStatementAdf = .error ()) :=
  ⟨by simp [oneStatementAdf],
    c7_cancellation_amended oneStatementAdf (by simp [oneStatementAdf])⟩

/-- C8: the variable maps are NOT injective for every ordered statement
list — `index << 2` is computed on `u32`, so the statement with index
`2^30` receives direct variable `(4·2^30) mod 2^32 = 0` and dual pair
`(1, 2)`, colliding with statement `0`.  This contradicts the maps' own
documented invariant ("BDD variables follow the natural ordering of the
statements") and the claimed strict monotonicity/injectivity. -/
theorem c8_variable_map_overflow_collision :
    directMapNew [0, 1073741824] = some [(0, 0), (1073741824, 0)] ∧
      dualMapNew [0, 1073741824] = some [(0, (1, 2)), (1073741824, (1, 2))] ∧
      dVar 0 = dVar 1073741824 ∧ (0 : Nat) ≠ 1073741824 := by
  refine ⟨?_, ?_, by decide, by decide⟩
  · simp [directMapNew, dVar]
  · simp [dualMapNew, tVar, fVar, dVar]

/-- Nested self-equivalences: `equivChain (n+1) = Equivalence(equivChain n,
equivChain n)` (buildable in memory through structural sharing of the
children). -/
def equivChain : Nat → CExpr
  | 0 => .const true
  | n + 1 => .equivE (equivChain n) (equivChain n)

theorem specSize_equivChain (n : Nat) :
    specSize (equivChain n) = 2 * 4 ^ n - 1 := by
  induction n with
  | zero => rfl
  | succ n ih =>
    have hk : 1 ≤ 4 ^ n := Nat.one_le_pow n 4 (by omega)
    rw [equivChain]
    rw [show specSize (CExpr.equivE (equivChain n) (equivChain n)) =
      3 + 2 * (specSize (equivChain n) + specSize (equivChain n)) from by
        rw [specSize]]
    rw [ih, pow_succ]
    omega

theorem expectedSize_equivChain (n : Nat) :
    expectedSize (equivChain n) = (2 * 4 ^ n - 1) % U64 := by
  induction n with
  | zero => rfl
  | succ n ih =>
    have hk : 1 ≤ 4 ^ n := Nat.one_le_pow n 4 (by omega)
    rw [equivChain]
    rw [show expectedSize (CExpr.equivE (equivChain n) (equivChain n)) =
      (2 * (expectedSize (equivChain n) + expectedSize (equivChain n)) + 3) % U64 from by
        rw [expectedSize]]
    rw [ih]
    have harith : 2 * ((2 * 4 ^ n - 1) % U64 + (2 * 4 ^ n - 1) % U64) + 3 =
        4 * ((2 * 4 ^ n - 1) % U64) + 3 := by omega
    rw [harith, pow_succ]
    have : 2 * (4 ^ n * 4) - 1 = 4 * (2 * 4 ^ n - 1) + 3 := by omega
    rw [this]
    simp only [U64]
    omega

/-- C9 counterexample: at a 32-level nested equivalence the exact recursive
formula gives `2·4^32 − 1 = 2^65 − 1`, but `expected_size` computes it in
`u64`, yielding `2^64 − 1`; the code's estimate does not equal the claimed
recursive formula. -/
theorem c9_expected_size_overflow_counterexample :
    expectedSize (equivChain 32) ≠ specSize (equivChain 32) := by
  rw [expectedSize_equivChain, specSize_equivChain]
  simp only [U64]
  decide

theorem expectedSize_eq_specSize_mod : ∀ n : Nat,
    (∀ e : CExpr, sizeOf e ≤ n → expectedSize e = specSize e % U64) ∧
      (∀ l : List CExpr, sizeOf l ≤ n → expectedSizeSum l = specSizeSum l % U64) := by
  intro n
  induction n with
  | zero =>
    constructor
    · intro e he; cases e <;> simp at he
    · intro l hl; cases l <;> simp at hl
  | succ n ih =>
    obtain ⟨ihE, ihL⟩ := ih
    have hU : 0 < U64 := by simp [U64]
    constructor
    · intro e he
      cases e with
      | const b => rw [expectedSize, specSize]; simp [U64]
      | stmt s => rw [expectedSize, specSize]; simp [U64]
      | neg x =>
        have hx : sizeOf x ≤ n := by simp at he; omega
        rw [expectedSize, specSize, ihE x hx]
        simp only [U64] at *
        omega
      | andE args =>
        have hl : sizeOf args ≤ n := by simp at he; omega
        rw [expectedSize, specSize, ihL args hl]
        simp only [U64] at *
        omega
      | orE args =>
        have hl : sizeOf args ≤ n := by simp at he; omega
        rw [expectedSize, specSize, ihL args hl]
        simp only [U64] at *
        omega
      | implE x y =>
        have hx : sizeOf x ≤ n := by simp at he; omega
        have hy : sizeOf y ≤ n := by simp at he; omega
        rw [expectedSize, specSize, ihE x hx, ihE y hy]
        simp only [U64] at *
        omega
      | equivE x y =>
        have hx : sizeOf x ≤ n := by simp at he; omega
        have hy : sizeOf y ≤ n := by simp at he; omega
        rw [expectedSize, specSize, ihE x hx, ihE y hy]
        simp only [U64] at *
        omega
      | xorE x y =>
        have hx : sizeOf x ≤ n := by simp at he; omega
        have hy : sizeOf y ≤ n := by simp at he; omega
        rw [expectedSize, specSize, ihE x hx, ihE y hy]
        simp only [U64] at *
        omega
    · intro l hl
      cases l with
      | nil => rw [expectedSizeSum, specSizeSum]; simp [U64]
      | cons x xs =>
        have hx : sizeOf x ≤ n := by simp at hl; omega
        have hxs : sizeOf xs ≤ n := by simp at hl; omega
        rw [expectedSizeSum, specSizeSum, ihE x hx, ihL xs hxs]
        simp only [U64] at *
        omega

theorem writerTotalSize_foldl (adf : ExpressionAdf) : ∀ (L : List Nat) (acc : Nat),
    acc % U64 = acc →
      L.foldl
        (fun acc s =>
          match adf.condition s with
          | some c => (acc + expectedSize c) % U64
          | none => acc)
        acc = (acc + ((L.filterMap adf.condition).map specSize).sum) % U64 := by
  intro L
  induction L with
  | nil =>
    intro acc hacc
    simpa using hacc.symm
  | cons s rest ih =>
    intro acc hacc
    rw [List.foldl_cons, List.filterMap_cons]
    cases hc : adf.condition s with
    | none => simpa using ih acc hacc
    | some c =>
      have hes : expectedSize c = specSize c % U64 :=
        (expectedSize_eq_specSize_mod (sizeOf c)).1 c le_rfl
      have hmod : (acc + expectedSize c) % U64 % U64 = (acc + expectedSize c) % U64 :=
        Nat.mod_mod_of_dvd _ dvd_rfl
      rw [ih ((acc + expectedSize c) % U64) hmod, hes]
      simp only [List.map_cons, List.sum_cons, U64] at *
      omega

/-- C9 (amended): the writer's size estimate equals the claimed recursive
formula computed in wrapping 64-bit arithmetic, i.e. the exact formula
value reduced modulo `2^64` (the two agree whenever the exact value is
below `2^64`); the writer refuses to emit exactly when the wrapped total
over all conditional statements exceeds 10,000,000. -/
theorem c9_size_estimate_amended :
    (∀ e : CExpr, expectedSize e = specSize e % U64) ∧
      (∀ adf : ExpressionAdf, writerRefuses adf = true ↔
        ((adf.statements.filterMap adf.condition).map specSize).sum % U64 > 10000000) := by
  constructor
  · intro e
    exact (expectedSize_eq_specSize_mod (sizeOf e)).1 e le_rfl
  · intro adf
    unfold writerRefuses writerTotalSize
    rw [writerTotalSize_foldl adf adf.statements 0 rfl]
    simp

theorem dualStep_eval (r : Bdd) (s : Nat) (a : Nat → Bool) :
    (dualStep r s).eval a =
      ((r.eval (Function.update a (dVar s) true) && a (tVar s)) ||
        (r.eval (Function.update a (dVar s) false) && a (fVar s))) := by
  have ht : tVar s ≠ dVar s := by simp [tVar]
  have hf : fVar s ≠ dVar s := by simp [fVar]
  simp only [dualStep, Bdd.eval, Function.update_same,
    Function.update_noteq ht, Function.update_noteq hf]
  cases r.eval (Function.update a (dVar s) true) <;>
    cases r.eval (Function.update a (dVar s) false) <;>
      cases a (tVar s) <;> cases a (fVar s) <;> rfl

theorem liftSpecStep_eval (r : Bdd) (s : Nat) (a : Nat → Bool) :
    (liftSpecStep r s).eval a =
      ((r.eval (Function.update a (dVar s) true) && a (tVar s)) ||
        (r.eval (Function.update a (dVar s) false) && a (fVar s))) := by
  have ht : tVar s ≠ dVar s := by simp [tVar]
  have hf : fVar s ≠ dVar s := by simp [fVar]
  simp only [liftSpecStep, Bdd.eval, Function.update_same,
    Function.update_noteq ht, Function.update_noteq hf]
  cases r.eval (Function.update a (dVar s) true) <;>
    cases r.eval (Function.update a (dVar s) false) <;>
      cases a (tVar s) <;> cases a (fVar s) <;> rfl

theorem dualLoop_eval_eq_liftSpec : ∀ (L : List Nat) (r r' : Bdd),
    (∀ a, r.eval a = r'.eval a) →
      ∀ a, (dualLoop r L).eval a = (L.foldl liftSpecStep r').eval a := by
  intro L
  induction L with
  | nil => intro r r' h a; simpa [dualLoop] using h a
  | cons s rest ih =>
    intro r r' h a
    rw [dualLoop, List.foldl_cons]
    apply ih
    intro a'
    rw [dualStep_eval, liftSpecStep_eval, h _, h _]

/-- C3: the symbolic ADF builder derives, for every statement with a direct
condition BDD `C`, the dual pair `(lift C, lift (¬C))`, and the source's
lift (conjoining `(¬v ∨ t) ∧ (v ∨ f)` and quantifying `v`, in reverse
statement order) computes exactly the specified
`F ← ∃ v . (F ∧ (v → t) ∧ (¬v → f))` rewriting. -/
theorem c3_direct_to_dual_lift (adf : ExpressionAdf) (s : Nat) (c : Bdd)
    (h : directConditions adf s = some c) :
    dualConditionsOf adf s = some (directToDualEncoding c adf.statements,
        directToDualEncoding c.not adf.statements) ∧
      (∀ a, (directToDualEncoding c adf.statements).eval a =
        (liftSpec c adf.statements).eval a) ∧
      (∀ a, (directToDualEncoding c.not adf.statements).eval a =
        (liftSpec c.not adf.statements).eval a) := by
  refine ⟨?_, ?_, ?_⟩
  · rw [dualConditionsOf, h]
  · exact fun a =>
      dualLoop_eval_eq_liftSpec adf.statements.reverse c c (fun _ => rfl) a
  · exact fun a =>
      dualLoop_eval_eq_liftSpec adf.statements.reverse c.not c.not (fun _ => rfl) a

/-- A one-statement ADF `s(0). ac(0, c(v)).` as an expression ADF. -/
def constTrueAdf : ExpressionAdf :=
  ⟨[0], fun s => if s = 0 then some (.const true) else none⟩

theorem c3_direct_to_dual_lift_witness :
    directConditions constTrueAdf 0 = some Bdd.tt ∧
      (dualConditionsOf constTrueAdf 0 = some
          (directToDualEncoding Bdd.tt constTrueAdf.statements,
            directToDualEncoding Bdd.tt.not constTrueAdf.statements) ∧
        (∀ a, (directToDualEncoding Bdd.tt constTrueAdf.statements).eval a =
          (liftSpec Bdd.tt constTrueAdf.statements).eval a) ∧
        (∀ a, (directToDualEncoding Bdd.tt.not constTrueAdf.statements).eval a =
          (liftSpec Bdd.tt.not constTrueAdf.statements).eval a)) :=
  ⟨by rw [directConditions]; simp [constTrueAdf, exprToBdd],
    c3_direct_to_dual_lift constTrueAdf 0 Bdd.tt
      (by rw [directConditions]; simp [constTrueAdf, exprToBdd])⟩

theorem exprToBddAndFold_eval (dom : List Nat) (bv : Nat → Bool) :
    ∀ (args : List CExpr),
      (∀ x ∈ args, ∀ b, exprToBdd dom x = some b →
        b.eval bv = evalExpr x (fun s => bv (dVar s))) →
      ∀ (acc b : Bdd), exprToBddAndFold dom acc args = some b →
        b.eval bv = (acc.eval bv && evalExprAll args (fun s => bv (dVar s))) := by
  intro args
  induction args with
  | nil =>
    intro _ acc b h
    rw [exprToBddAndFold] at h
    cases h
    simp [evalExprAll]
  | cons x xs ih =>
    intro hmem acc b h
    rw [exprToBddAndFold] at h
    cases hx : exprToBdd dom x with
    | none => rw [hx] at h; cases h
    | some xb =>
      rw [hx] at h
      have hstep := ih (fun y hy => hmem y (List.mem_cons_of_mem x hy)) (acc.and xb) b h
      rw [hstep, evalExprAll]
      have := hmem x (List.mem_cons_self x xs) xb hx
      simp [Bdd.eval, this, Bool.and_assoc]

theorem exprToBddOrFold_eval (dom : List Nat) (bv : Nat → Bool) :
    ∀ (args : List CExpr),
      (∀ x ∈ args, ∀ b, exprToBdd dom x = some b →
        b.eval bv = evalExpr x (fun s => bv (dVar s))) →
      ∀ (acc b : Bdd), exprToBddOrFold dom acc args = some b →
        b.eval bv = (acc.eval bv || evalExprAny args (fun s => bv (dVar s))) := by
  intro args
  induction args with
  | nil =>
    intro _ acc b h
    rw [exprToBddOrFold] at h
    cases h
    simp [evalExprAny]
  | cons x xs ih =>
    intro hmem acc b h
    rw [exprToBddOrFold] at h
    cases hx : exprToBdd dom x with
    | none => rw [hx] at h; cases h
    | some xb =>
      rw [hx] at h
      have hstep := ih (fun y hy => hmem y (List.mem_cons_of_mem x hy)) (acc.or xb) b h
      rw [hstep, evalExprAny]
      have := hmem x (List.mem_cons_self x xs) xb hx
      simp [Bdd.eval, this, Bool.or_assoc]

theorem exprToBdd_eval_aux : ∀ (n : Nat) (e : CExpr), sizeOf e ≤ n →
    ∀ (dom : List Nat) (b : Bdd), exprToBdd dom e = some b →
      ∀ bv, b.eval bv = evalExpr e (fun s => bv (dVar s)) := by
  intro n
  induction n with
  | zero => intro e he; cases e <;> simp at he
  | succ n ih =>
    intro e he dom b h bv
    cases e with
    | const v =>
      rw [exprToBdd] at h
      cases h
      cases v <;> simp [Bdd.eval, evalExpr]
    | stmt s =>
      rw [exprToBdd] at h
      by_cases hs : s ∈ dom
      · rw [if_pos hs] at h
        cases h
        simp [Bdd.eval, evalExpr]
      · rw [if_neg hs] at h; cases h
    | neg c =>
      have hc : sizeOf c ≤ n := by simp at he; omega
      rw [exprToBdd] at h
      cases hcb : exprToBdd dom c with
      | none => rw [hcb] at h; cases h
      | some cb =>
        rw [hcb] at h
        cases h
        rw [show evalExpr (CExpr.neg c) (fun s => bv (dVar s)) =
          !(evalExpr c (fun s => bv (dVar s))) from by rw [evalExpr]]
        simp [Bdd.eval, ih c hc dom cb hcb bv]
    | andE args =>
      have hl : sizeOf args ≤ n := by simp at he; omega
      rw [exprToBdd] at h
      have hmem : ∀ x ∈ args, ∀ xb, exprToBdd dom x = some xb →
          xb.eval bv = evalExpr x (fun s => bv (dVar s)) := by
        intro x hx xb hxb
        have : sizeOf x ≤ n :=
          le_trans (le_of_lt (List.sizeOf_lt_of_mem hx)) hl
        exact ih x this dom xb hxb bv
      have := exprToBddAndFold_eval dom bv args hmem Bdd.tt b h
      rw [this]
      rw [show evalExpr (CExpr.andE args) (fun s => bv (dVar s)) =
        evalExprAll args (fun s => bv (dVar s)) from by rw [evalExpr]]
      simp [Bdd.eval]
    | orE args =>
      have hl : sizeOf args ≤ n := by simp at he; omega
      rw [exprToBdd] at h
      have hmem : ∀ x ∈ args, ∀ xb, exprToBdd dom x = some xb →
          xb.eval bv = evalExpr x (fun s => bv (dVar s)) := by
        intro x hx xb hxb
        have : sizeOf x ≤ n :=
          le_trans (le_of_lt (List.sizeOf_lt_of_mem hx)) hl
        exact ih x this dom xb hxb bv
      have := exprToBddOrFold_eval dom bv args hmem Bdd.ff b h
      rw [this]
      rw [show evalExpr (CExpr.orE args) (fun s => bv (dVar s)) =
        evalExprAny args (fun s => bv (dVar s)) from by rw [evalExpr]]
      simp [Bdd.eval]
    | implE l r =>
      have hlsz : sizeOf l ≤ n := by simp at he; omega
      have hrsz : sizeOf r ≤ n := by simp at he; omega
      rw [exprToBdd] at h
      cases hlb : exprToBdd dom l with
      | none => rw [hlb] at h; cases h
      | some lb =>
        cases hrb : exprToBdd dom r with
        | none => rw [hlb, hrb] at h; cases h
        | some rb =>
          rw [hlb, hrb] at h
          cases h
          rw [show evalExpr (CExpr.implE l r) (fun s => bv (dVar s)) =
            (!(evalExpr l (fun s => bv (dVar s))) || evalExpr r (fun s => bv (dVar s)))
            from by rw [evalExpr]]
          simp [Bdd.eval, ih l hlsz dom lb hlb bv, ih r hrsz dom rb hrb bv]
    | equivE l r =>
      have hlsz : sizeOf l ≤ n := by simp at he; omega
      have hrsz : sizeOf r ≤ n := by simp at he; omega
      rw [exprToBdd] at h
      cases hlb : exprToBdd dom l with
      | none => rw [hlb] at h; cases h
      | some lb =>
        cases hrb : exprToBdd dom r with
        | none => rw [hlb, hrb] at h; cases h
        | some rb =>
          rw [hlb, hrb] at h
          cases h
          rw [show evalExpr (CExpr.equivE l r) (fun s => bv (dVar s)) =
            ((evalExpr l (fun s => bv (dVar s))) == (evalExpr r (fun s => bv (dVar s))))
            from by rw [evalExpr]]
          simp [Bdd.eval, ih l hlsz dom lb hlb bv, ih r hrsz dom rb hrb bv]
    | xorE l r =>
      have hlsz : sizeOf l ≤ n := by simp at he; omega
      have hrsz : sizeOf r ≤ n := by simp at he; omega
      rw [exprToBdd] at h
      cases hlb : exprToBdd dom l with
      | none => rw [hlb] at h; cases h
      | some lb =>
        cases hrb : exprToBdd dom r with
        | none => rw [hlb, hrb] at h; cases h
        | some rb =>
          rw [hlb, hrb] at h
          cases h
          rw [show evalExpr (CExpr.xorE l r) (fun s => bv (dVar s)) =
            !((evalExpr l (fun s => bv (dVar s))) == (evalExpr r (fun s => bv (dVar s))))
            from by rw [evalExpr]]
          simp [Bdd.eval, ih l hlsz dom lb hlb bv, ih r hrsz dom rb hrb bv]

/-- C4: the expression-to-BDD translation follows the stated rules
(constants to constant BDDs, statement references to positive literals,
negation to complement, And/Or to left folds from true/false in child
order, implication to `¬l ∨ r`, equivalence/xor to `iff`/`xor`), and
consequently evaluating the translated BDD under a full assignment of the
direct variables agrees with evaluating the condition expression directly
on the induced statement assignment. -/
theorem c4_expression_to_bdd_round_trip (dom : List Nat) (e : CExpr) (b : Bdd)
    (h : exprToBdd dom e = some b) (bv : Nat → Bool) :
    b.eval bv = evalExpr e (fun s => bv (dVar s)) :=
  exprToBdd_eval_aux (sizeOf e) e le_rfl dom b h bv

theorem c4_expression_to_bdd_round_trip_witness :
    exprToBdd [0] (.stmt 0) = some (Bdd.lit 0 true) ∧
      (Bdd.lit 0 true).eval (fun _ => true) =
        evalExpr (.stmt 0) (fun s => (fun _ => true) (dVar s)) :=
  ⟨by rw [exprToBdd]; simp [dVar],
    c4_expression_to_bdd_round_trip [0] (.stmt 0) (Bdd.lit 0 true)
      (by rw [exprToBdd]; simp [dVar]) (fun _ => true)⟩

theorem extendStep_eval (S : Bdd) (v : Nat) (a : Nat → Bool) :
    (extendStep S v).eval a =
      (S.eval a || (a v && S.eval (Function.update a v false))) := by
  have hadds : (((S.and (Bdd.lit v false)).ex v).and (Bdd.lit v true)).eval a =
      (a v && S.eval (Function.update a v false)) := by
    simp only [Bdd.eval, Function.update_same]
    cases hx : S.eval (Function.update a v true) <;>
      cases hy : S.eval (Function.update a v false) <;> cases hz : a v <;> rfl
  by_cases hisf : (((S.and (Bdd.lit v false)).ex v).and (Bdd.lit v true)).isFalseB = true
  · have h0 : (a v && S.eval (Function.update a v false)) = false := by
      rw [← hadds]; exact (Bdd.isFalseB_iff _).mp hisf a
    simp only [extendStep, hisf, if_true, h0, Bool.or_false]
  · simp only [Bool.not_eq_true] at hisf
    have hstep : extendStep S v =
        S.or (((S.and (Bdd.lit v false)).ex v).and (Bdd.lit v true)) := by
      simp only [extendStep, hisf, Bool.false_eq_true, if_false]
    rw [hstep]
    have hor : (S.or (((S.and (Bdd.lit v false)).ex v).and (Bdd.lit v true))).eval a =
        (S.eval a || (((S.and (Bdd.lit v false)).ex v).and (Bdd.lit v true)).eval a) := rfl
    rw [hor, hadds]

/-- `g` lies below `a` in the pointwise zero-to-one order on the variables
of `L` and agrees with `a` everywhere else. -/
def belowOn (L : List Nat) (g a : Nat → Bool) : Prop :=
  (∀ v ∈ L, g v = true → a v = true) ∧ ∀ v, v ∉ L → g v = a v

theorem belowOn_reverse (L : List Nat) (g a : Nat → Bool) :
    belowOn L.reverse g a ↔ belowOn L g a := by
  unfold belowOn
  simp [List.mem_reverse]

theorem belowOn_refl (L : List Nat) (g : Nat → Bool) : belowOn L g g :=
  ⟨fun _ _ h => h, fun _ _ => rfl⟩

theorem belowOn_trans (L : List Nat) (g h a : Nat → Bool)
    (h1 : belowOn L g h) (h2 : belowOn L h a) : belowOn L g a :=
  ⟨fun v hv hg => h2.1 v hv (h1.1 v hv hg),
    fun v hv => (h1.2 v hv).trans (h2.2 v hv)⟩

theorem extendLoop_eval_iff : ∀ (L : List Nat) (S : Bdd) (a : Nat → Bool),
    (extendLoop S L).eval a = true ↔ ∃ g, S.eval g = true ∧ belowOn L g a := by
  intro L
  induction L with
  | nil =>
    intro S a
    rw [extendLoop]
    constructor
    · intro h
      exact ⟨a, h, fun v hv => by simp at hv, fun v _ => rfl⟩
    · rintro ⟨g, hg, _, hb2⟩
      have hga : g = a := funext (fun v => hb2 v (by simp))
      rw [← hga]
      exact hg
  | cons v rest ih =>
    intro S a
    rw [extendLoop, ih (extendStep S v) a]
    constructor
    · rintro ⟨g, hg, hb1, hb2⟩
      rw [extendStep_eval] at hg
      simp only [Bool.or_eq_true, Bool.and_eq_true] at hg
      rcases hg with hg' | hg'
      · refine ⟨g, hg', ?_, ?_⟩
        · intro u hu hgu
          rcases List.mem_cons.mp hu with rfl | hu'
          · by_cases hvr : u ∈ rest
            · exact hb1 u hvr hgu
            · rw [← hb2 u hvr]; exact hgu
          · exact hb1 u hu' hgu
        · intro u hu
          exact hb2 u (fun hur => hu (List.mem_cons_of_mem v hur))
      · obtain ⟨hgv, hS⟩ := hg'
        refine ⟨Function.update g v false, hS, ?_, ?_⟩
        · intro u hu hgu
          by_cases huv : u = v
          · subst huv
            rw [Function.update_same] at hgu
            cases hgu
          · rw [Function.update_noteq huv] at hgu
            rcases List.mem_cons.mp hu with h' | hu'
            · exact absurd h' huv
            · exact hb1 u hu' hgu
        · intro u hu
          have huv : u ≠ v := fun h' => hu (h' ▸ List.mem_cons_self v rest)
          rw [Function.update_noteq huv]
          exact hb2 u (fun hur => hu (List.mem_cons_of_mem v hur))
    · rintro ⟨g, hg, hb1, hb2⟩
      refine ⟨Function.update g v (a v), ?_, ?_, ?_⟩
      · rw [extendStep_eval]
        by_cases hgva : g v = a v
        · rw [← hgva, Function.update_eq_self]
          rw [hg]
          exact Bool.true_or _
        · have hgv : g v = false := by
            cases hgvc : g v
            · rfl
            · exact absurd (hb1 v (List.mem_cons_self v rest) hgvc) (by rw [hgvc] at hgva; simpa using (Ne.symm hgva))
          have hav : a v = true := by
            cases havc : a v
            · rw [hgv, havc] at hgva; simp at hgva
            · rfl
          simp only [Bool.or_eq_true, Bool.and_eq_true]
          right
          constructor
          · rw [hav, Function.update_same]
          · rw [Function.update_idem, ← hgv, Function.update_eq_self, hg]
      · intro u hu hgu
        by_cases huv : u = v
        · subst huv
          rw [Function.update_same] at hgu
          exact hgu
        · rw [Function.update_noteq huv] at hgu
          exact hb1 u (List.mem_cons_of_mem v hu) hgu
      · intro u hu
        by_cases huv : u = v
        · subst huv
          rw [Function.update_same]
        · rw [Function.update_noteq huv]
          exact hb2 u (by simp [huv, hu])

/-- C5: `extend_with_more_ones` returns exactly the upward closure of the
set under the pointwise order on the encoding's direct variables (a model
is in the result iff some input model agrees with it except possibly where
the input has zero and the result has one), keeps the same shared encoding,
is idempotent, contains its input, and is pointwise monotone in the input
set. -/
theorem c5_extend_with_more_ones (e : EncRef) (S T : Bdd)
    (hST : ∀ a, S.eval a = true → T.eval a = true) :
    (∀ a, (MS2.extendWithMoreOnes ⟨S, e⟩).set.eval a = true ↔
        ∃ g, S.eval g = true ∧ belowOn (e.stmts.map dVar) g a) ∧
      (MS2.extendWithMoreOnes ⟨S, e⟩).enc = e ∧
      (∀ a, (MS2.extendWithMoreOnes (MS2.extendWithMoreOnes ⟨S, e⟩)).set.eval a =
        (MS2.extendWithMoreOnes ⟨S, e⟩).set.eval a) ∧
      (∀ a, S.eval a = true → (MS2.extendWithMoreOnes ⟨S, e⟩).set.eval a = true) ∧
      (∀ a, (MS2.extendWithMoreOnes ⟨S, e⟩).set.eval a = true →
        (MS2.extendWithMoreOnes ⟨T, e⟩).set.eval a = true) := by
  have hchar : ∀ (X : Bdd) (a : Nat → Bool),
      (MS2.extendWithMoreOnes ⟨X, e⟩).set.eval a = true ↔
        ∃ g, X.eval g = true ∧ belowOn (e.stmts.map dVar) g a := by
    intro X a
    show (extendLoop X (e.stmts.map dVar).reverse).eval a = true ↔ _
    rw [extendLoop_eval_iff]
    constructor
    · rintro ⟨g, hg, hb⟩
      exact ⟨g, hg, (belowOn_reverse _ g a).mp hb⟩
    · rintro ⟨g, hg, hb⟩
      exact ⟨g, hg, (belowOn_reverse _ g a).mpr hb⟩
  refine ⟨hchar S, rfl, ?_, ?_, ?_⟩
  · intro a
    rw [Bool.eq_iff_iff]
    have houter : (MS2.extendWithMoreOnes (MS2.extendWithMoreOnes ⟨S, e⟩)).set.eval a = true ↔
        ∃ g, (MS2.extendWithMoreOnes ⟨S, e⟩).set.eval g = true ∧
          belowOn (e.stmts.map dVar) g a := hchar _ a
    rw [houter, hchar S a]
    constructor
    · rintro ⟨g, hg, hb⟩
      obtain ⟨g', hg', hb'⟩ := (hchar S g).mp hg
      exact ⟨g', hg', belowOn_trans _ g' g a hb' hb⟩
    · rintro ⟨g, hg, hb⟩
      exact ⟨g, (hchar S g).mpr ⟨g, hg, belowOn_refl _ g⟩, hb⟩
  · intro a ha
    exact (hchar S a).mpr ⟨a, ha, belowOn_refl _ a⟩
  · intro a ha
    obtain ⟨g, hg, hb⟩ := (hchar S a).mp ha
    exact (hchar T a).mpr ⟨g, hST g hg, hb⟩

theorem c5_extend_with_more_ones_witness :
    (∀ a, Bdd.ff.eval a = true → Bdd.ff.eval a = true) ∧
      ((∀ a, (MS2.extendWithMoreOnes ⟨Bdd.ff, ⟨0, []⟩⟩).set.eval a = true ↔
          ∃ g, Bdd.ff.eval g = true ∧ belowOn ((⟨0, []⟩ : EncRef).stmts.map dVar) g a) ∧
        (MS2.extendWithMoreOnes ⟨Bdd.ff, ⟨0, []⟩⟩).enc = ⟨0, []⟩ ∧
        (∀ a, (MS2.extendWithMoreOnes
            (MS2.extendWithMoreOnes ⟨Bdd.ff, ⟨0, []⟩⟩)).set.eval a =
          (MS2.extendWithMoreOnes ⟨Bdd.ff, ⟨0, []⟩⟩).set.eval a) ∧
        (∀ a, Bdd.ff.eval a = true →
          (MS2.extendWithMoreOnes ⟨Bdd.ff, ⟨0, []⟩⟩).set.eval a = true) ∧
        (∀ a, (MS2.extendWithMoreOnes ⟨Bdd.ff, ⟨0, []⟩⟩).set.eval a = true →
          (MS2.extendWithMoreOnes ⟨Bdd.ff, ⟨0, []⟩⟩).set.eval a = true)) :=
  ⟨fun _ h => h, c5_extend_with_more_ones ⟨0, []⟩ Bdd.ff Bdd.ff (fun _ h => h)⟩

/-- C6: the binary model-set operations fail (the `EncodingMismatch`
assertion, modelled as `none`) exactly when the operands do not share the
same encoding instance (handle identity, not value equality); when they do,
each returns a new set wrapping the corresponding BDD operation (`and`,
`or`, `and`-`not`) over the same shared encoding — operands are immutable
values and are not modified. -/
theorem c6_binary_ops_encoding_identity (a b : MS2) :
    ((a.intersect b).isSome ↔ a.enc.id = b.enc.id) ∧
      ((a.union b).isSome ↔ a.enc.id = b.enc.id) ∧
      ((a.minus b).isSome ↔ a.enc.id = b.enc.id) ∧
      (a.enc.id = b.enc.id →
        a.intersect b = some ⟨a.set.and b.set, a.enc⟩ ∧
          a.union b = some ⟨a.set.or b.set, a.enc⟩ ∧
          a.minus b = some ⟨a.set.and b.set.not, a.enc⟩) := by
  unfold MS2.intersect MS2.union MS2.minus
  by_cases h : a.enc.id = b.enc.id <;> simp [h]

/-- The model set of all interpretations over an encoding instance with
identity token 0. -/
def msTT : MS2 := ⟨Bdd.tt, ⟨0, []⟩⟩

/-- The empty model set over the same encoding instance as `msTT`. -/
def msFF : MS2 := ⟨Bdd.ff, ⟨0, []⟩⟩

theorem c6_binary_ops_encoding_identity_witness :
    msTT.enc.id = msFF.enc.id ∧
      (msTT.intersect msFF = some ⟨msTT.set.and msFF.set, msTT.enc⟩ ∧
        msTT.union msFF = some ⟨msTT.set.or msFF.set, msTT.enc⟩ ∧
        msTT.minus msFF = some ⟨msTT.set.and msFF.set.not, msTT.enc⟩) :=
  ⟨rfl, (c6_binary_ops_encoding_identity msTT msFF).2.2.2 rfl⟩

/-- C10: two `ModelSetTwoValued` values are equal iff their BDDs are
structurally equal (equivalently, on canonical BDDs: denote the same set)
and their encoding handles are identical; in particular, two sets built
from identical BDDs over two distinct encoding instances — even
content-identical ones (both `stmts = []` here) — compare as unequal. -/
theorem c10_model_set_equality (a b : MS2) :
    (MS2.eqImpl a b = true ↔
        ((∀ x, a.set.eval x = b.set.eval x) ∧ a.enc.id = b.enc.id)) ∧
      MS2.eqImpl ⟨Bdd.tt, ⟨0, []⟩⟩ ⟨Bdd.tt, ⟨1, []⟩⟩ = false := by
  constructor
  · unfold MS2.eqImpl
    simp only [Bool.and_eq_true, beq_iff_eq, Bdd.structuralEq_iff]
  · rfl

theorem c10_model_set_equality_witness :
    MS2.eqImpl ⟨Bdd.tt, ⟨0, []⟩⟩ ⟨Bdd.tt, ⟨0, []⟩⟩ = true :=
  (c10_model_set_equality ⟨Bdd.tt, ⟨0, []⟩⟩ ⟨Bdd.tt, ⟨0, []⟩⟩).1.mpr ⟨fun _ => rfl, rfl⟩

theorem c1_solve_complete_fixed_points_witness :
    ∃ ms, solveCompleteTwoValued false emptyAdfBdds = .ok ms ∧
      ms.enc = ⟨emptyAdfBdds.encId, emptyAdfBdds.stmts⟩ ∧
      completeLoop false emptyAdfBdds emptyAdfBdds.stmts = .ok (emptyAdfBdds.stmts.filterMap
        (fun s => (emptyAdfBdds.directCond s).map
          (fun c => (Bdd.lit (dVar s) true).iff c))) ∧
      (∀ a, ms.set.eval a = true ↔
        ∀ s ∈ emptyAdfBdds.stmts, ∀ c, emptyAdfBdds.directCond s = some c →
          a (dVar s) = c.eval a) :=
  c1_solve_complete_fixed_points emptyAdfBdds

theorem c2_solve_admissible_traps_witness :
    ∃ ms, solveAdmissible false oneStatementAdf = .ok ms ∧
      ms.enc = ⟨oneStatementAdf.encId, oneStatementAdf.stmts⟩ ∧
      admissibleLoop false oneStatementAdf oneStatementAdf.stmts =
        .ok (oneStatementAdf.stmts.flatMap
          (fun s => match oneStatementAdf.dualCond s with
            | some (p, n) =>
              [p.imp (Bdd.lit (tVar s) true), n.imp (Bdd.lit (fVar s) true)]
            | none => [])) ∧
      (∀ a, ms.set.eval a = true ↔
        ((∀ s ∈ oneStatementAdf.stmts, a (tVar s) = true ∨ a (fVar s) = true) ∧
          ∀ s ∈ oneStatementAdf.stmts, ∀ p n, oneStatementAdf.dualCond s = some (p, n) →
            (p.eval a = true → a (tVar s) = true) ∧
            (n.eval a = true → a (fVar s) = true))) :=
  c2_solve_admissible_traps oneStatementAdf

theorem c9_size_estimate_amended_witness :
    expectedSize (.const true) = specSize (.const true) % U64 ∧
      (writerRefuses constTrueAdf = true ↔
        ((constTrueAdf.statements.filterMap constTrueAdf.condition).map specSize).sum
          % U64 > 10000000) :=
  ⟨c9_size_estimate_amended.1 (.const true), c9_size_estimate_amended.2 constTrueAdf⟩
